import Mathlib

/-!
Verification of the equation-system layer of the `dalgebra` package
(`src/dalgebra/diff_polynomial/diff_polynomial_system.py`): systems of
differential/difference polynomials over a ring with an operator
(`RWOSystem`), their SP1 extension (`extend_by_operation`), the SP2
balance condition, the bounded extension search and the dispatch logic
of the operator-resultant engine (`diff_resultant`).

The polynomial layer (class `RWOPolynomial`, its parent ring, and the
sage coercion machinery) is an external collaborator of the system
layer; it enters only through the interface recorded in the `Ctx`
structure below.  The two mutable per-instance caches of the Python
class (`__CACHED_SP1`, `__CACHED_RES`) are modelled by explicit state
passing.  Python exceptions are modelled by `Except PyErr`.
-/

namespace DAlgebra

/-- The Python exception kinds raised or propagated by the system layer. -/
inductive PyErr where
  | typeError
  | valueError
  | indexError
  | notImplementedError
deriving DecidableEq

section Generic

variable {P Fam Par : Type}

/-- Interface of the external collaborators of `RWOSystem`.  Modelled from the spec:
the polynomial class (`RWOPolynomial`), its parent ring and the sage pushout
machinery are outside the system source.  `op` is apply-operator-once
(`el.operation()`), `parOf` is `el.parent()`, `push` the pushout of two rings,
`isRWORing` the `is_RWOPolynomialRing` test, `coerce r el` the coercion `r(el)`,
`gens` the generator families `r.gens()` of a ring, `varsOf` the algebraic
variables of a polynomial as (family, order-index) pairs (`el.variables()`),
`varLe` the comparison used by `list.sort()` on those variables, `linear` the
per-equation linearity test `el.is_linear(families)`, `homogAlg` the
homogeneity test of the algebraic collapse of one equation with the given main
families, and `zeroP` the zero polynomial. -/
structure Ctx (P Fam Par : Type) where
  op : P → P
  parOf : P → Par
  push : Par → Par → Par
  isRWORing : Par → Bool
  coerce : Par → P → P
  gens : Par → List Fam
  varsOf : P → List (Fam × ℕ)
  varLe : (Fam × ℕ) → (Fam × ℕ) → Bool
  linear : P → List Fam → Bool
  homogAlg : List Fam → P → Bool
  zeroP : P

/-- The data of a system over a ring with operator: the stored equations
(`self.__equations`), the unifying ring (`self.__parent`), the main variable
families (`self.__variables`) and the remaining families (`self.__parameters`). -/
structure RWOSystem (P Fam Par : Type) where
  equations : List P
  parentR : Par
  vars : List Fam
  params : List Fam
deriving DecidableEq

/-- `size()`: the number of stored equations. -/
abbrev RWOSystem.size (S : RWOSystem P Fam Par) : ℕ := S.equations.length

/-- `el.operation(times=k)`: apply the operator `k` times.  The recursion mirrors
the `derivative`/`operation` method: zero times is the element itself, otherwise
the operator is applied to the `(k-1)`-fold application. -/
def opPow (C : Ctx P Fam Par) : ℕ → P → P
  | 0, e => e
  | k + 1, e => C.op (opPow C k e)

/-- The effective position of Python sequence indexing `t[i]`: a negative
index counts from the end of the sequence. -/
def pyIdx (l : List P) (i : ℤ) : ℤ := if i < 0 then i + l.length else i

/-- Python sequence indexing `t[i]`: non-negative indices look up directly,
negative ones wrap around once, anything else raises `IndexError`. -/
def pyGet (l : List P) (i : ℤ) : Except PyErr P :=
  if h : 0 ≤ pyIdx l i ∧ pyIdx l i < l.length then
    .ok (l.get ⟨(pyIdx l i).toNat, by omega⟩)
  else .error .indexError

/-- An equation reference: a plain index into the equation list, or a pair
`(i, k)` meaning "apply the operator `k` times to `equations[i]`". -/
inductive EqIndex where
  | plain (i : ℤ)
  | pair (i : ℤ) (k : ℕ)
deriving DecidableEq

/-- `equation(index)`: a pair `(i, k)` gives `self._equations[i].operation(times=k)`,
a plain index gives `self._equations[index]` (an out-of-range index raises
`IndexError`, which the method does not catch). -/
def equationE (C : Ctx P Fam Par) (S : RWOSystem P Fam Par) : EqIndex → Except PyErr P
  | .pair i k => (pyGet S.equations i).map (fun e => opPow C k e)
  | .plain i => pyGet S.equations i

/-- Sequential mapping of a fallible function over a list, propagating the first
exception: models a Python list comprehension whose body may raise. -/
def mapE (f : α → Except PyErr β) : List α → Except PyErr (List β)
  | [] => .ok []
  | a :: as =>
    match f a with
    | .error e => .error e
    | .ok b =>
      match mapE f as with
      | .error e => .error e
      | .ok bs => .ok (b :: bs)

/-- `equations(indices)`: `None` returns all stored equations; a list of
references returns the referenced equations in the given order (a slice is
resolved by Python to such a list of plain indices first, and a scalar is
wrapped into a one-element list). -/
def equationsSel (C : Ctx P Fam Par) (S : RWOSystem P Fam Par) :
    Option (List EqIndex) → Except PyErr (List P)
  | none => .ok S.equations
  | some l => mapE (equationE C S) l

variable [DecidableEq Fam]

/-- The `RWOSystem.__init__` constructor: unify the parents of the equations
(and the optionally given ring) by iterated pushout — `functools.reduce` on an
empty sequence raises `TypeError` — fail with `TypeError` when the unified ring
is not a ring of operator polynomials, coerce every equation into it, resolve
the requested variable names against the generators (`ValueError` on an unknown
name), and let the parameters be the remaining generators. -/
def mkSystem (C : Ctx P Fam Par) (eqs : List P) (parent? : Option Par)
    (vars? : Option (List Fam)) : Except PyErr (RWOSystem P Fam Par) :=
  let parents : List Par :=
    match parent? with
    | some p => p :: eqs.map C.parOf
    | none => eqs.map C.parOf
  match parents with
  | [] => .error .typeError
  | p0 :: rest =>
    let pushed := rest.foldl C.push p0
    if C.isRWORing pushed then
      let newEqs := eqs.map (C.coerce pushed)
      match vars? with
      | some vs =>
        if vs.all (fun v => decide (v ∈ C.gens pushed)) then
          .ok ⟨newEqs, pushed, vs, (C.gens pushed).filter (fun g => decide (g ∉ vs))⟩
        else .error .valueError
      | none =>
        .ok ⟨newEqs, pushed, C.gens pushed,
          (C.gens pushed).filter (fun g => decide (g ∉ C.gens pushed))⟩
    else .error .typeError

/-- `subsystem(indices, variables)`: build a new system from `equations(indices)`
over the same parent; a missing variable list defaults to the receiver's. -/
def subsystem (C : Ctx P Fam Par) (S : RWOSystem P Fam Par)
    (idx : Option (List EqIndex)) (vars? : Option (List Fam)) :
    Except PyErr (RWOSystem P Fam Par) :=
  match equationsSel C S idx with
  | .error e => .error e
  | .ok eqs => mkSystem C eqs (some S.parentR) (some (vars?.getD S.vars))

/-- `change_variables(variables)`: delegate to `subsystem(None, variables)`
(a single variable is wrapped into a one-element list first). -/
def changeVariables (C : Ctx P Fam Par) (S : RWOSystem P Fam Par)
    (vs : List Fam) : Except PyErr (RWOSystem P Fam Par) :=
  subsystem C S none (some vs)

/-- `__getitem__(index)`: build a new system from `equations(index)` over the
same parent and the same main variables. -/
def getItem (C : Ctx P Fam Par) (S : RWOSystem P Fam Par)
    (idx : Option (List EqIndex)) : Except PyErr (RWOSystem P Fam Par) :=
  match equationsSel C S idx with
  | .error e => .error e
  | .ok eqs => mkSystem C eqs (some S.parentR) (some S.vars)

/-- The equation list of the SP1 extension: for each original equation, all its
operator applications from `0` up to the corresponding entry of `Ls`.  The
source iterates `i` over `range(self.size())` reading `Ls[i]`; the `zip`
renders exactly that when `Ls` has at least `size()` entries (the only way the
source reaches this point without an `IndexError`, handled in
`extendByOperationChecked`). -/
def extendByOperationL (C : Ctx P Fam Par) (S : RWOSystem P Fam Par)
    (Ls : List ℕ) : List P :=
  (S.equations.zip Ls).flatMap
    (fun pr => (List.range (pr.2 + 1)).map (fun k => opPow C k pr.1))

/-- `extend_by_operation(Ls)` (semantic part, after argument validation): build
a new system, via the constructor, from the SP1-extended equation list over the
same parent and the same main variables. -/
def extendByOperation (C : Ctx P Fam Par) (S : RWOSystem P Fam Par)
    (Ls : List ℕ) : Except PyErr (RWOSystem P Fam Par) :=
  mkSystem C (extendByOperationL C S Ls) (some S.parentR) (some S.vars)

/-- The system `extend_by_operation` builds when the receiver is well-formed:
SP1-extended equations, same parent, same variables, same parameters. -/
def extSys (C : Ctx P Fam Par) (S : RWOSystem P Fam Par) (Ls : List ℕ) :
    RWOSystem P Fam Par :=
  ⟨extendByOperationL C S Ls, S.parentR, S.vars, S.params⟩

/-- The memoization of `extend_by_operation` (`self.__CACHED_SP1`), modelled by
explicit state passing: the cache maps bound tuples to systems; a hit returns
the stored system unchanged, a miss computes the system and stores it under the
exact tuple `Ls`. -/
def extendByOperationCached (C : Ctx P Fam Par) (S : RWOSystem P Fam Par)
    (cache : List (List ℕ × RWOSystem P Fam Par)) (Ls : List ℕ) :
    Except PyErr (RWOSystem P Fam Par × List (List ℕ × RWOSystem P Fam Par)) :=
  match cache.find? (fun pr => decide (pr.1 = Ls)) with
  | some pr => .ok (pr.2, cache)
  | none =>
    match extendByOperation C S Ls with
    | .ok T => .ok (T, cache ++ [(Ls, T)])
    | .error e => .error e

/-- An entry of the Python argument of `extend_by_operation`: an integer, or
any non-integer object (`not el in ZZ`). -/
inductive PyVal where
  | int (n : ℤ)
  | nonInt
deriving DecidableEq

/-- The validation `not el in ZZ or el < 0` of one entry of `Ls`. -/
def pyValBad : PyVal → Bool
  | .int n => decide (n < 0)
  | .nonInt => true

/-- Conversion of a validated entry to the natural number used by `range`. -/
def pyValToNat : PyVal → ℕ
  | .int n => n.toNat
  | .nonInt => 0

/-- The Python argument of `extend_by_operation`: a list/tuple of entries, or
any other object. -/
inductive PyArg where
  | seq (l : List PyVal)
  | nonSeq
deriving DecidableEq

/-- `extend_by_operation(Ls)` with its argument validation: `TypeError` when
the argument is not a list or tuple, `ValueError` when an entry is not a
non-negative integer.  The length is *not* validated: the construction reads
`Ls[i]` only for `i < size()`, so a shorter sequence raises `IndexError` and a
longer one is silently truncated. -/
def extendByOperationChecked (C : Ctx P Fam Par) (S : RWOSystem P Fam Par)
    (arg : PyArg) : Except PyErr (RWOSystem P Fam Par) :=
  match arg with
  | .nonSeq => .error .typeError
  | .seq l =>
    if l.any pyValBad then .error .valueError
    else if S.size ≤ l.length then extendByOperation C S (l.map pyValToNat)
    else .error .indexError

/-- Insertion of an element into a list sorted by the boolean comparison `le`. -/
def insertLe (le : α → α → Bool) (a : α) : List α → List α
  | [] => [a]
  | b :: bs => if le a b then a :: b :: bs else b :: insertLe le a bs

/-- Insertion sort by the boolean comparison `le`: models `list.sort()`. -/
def sortLe (le : α → α → Bool) : List α → List α
  | [] => []
  | a :: as => insertLe le a (sortLe le as)

/-- `algebraic_variables()`: the set of algebraic variables appearing in any
equation, filtered to those whose family is a main variable of the system,
sorted. -/
def algebraicVariables (C : Ctx P Fam Par) (S : RWOSystem P Fam Par) :
    List (Fam × ℕ) :=
  sortLe C.varLe
    (((S.equations.flatMap C.varsOf).dedup).filter
      (fun v => decide (v.1 ∈ S.vars)))

/-- `is_homogeneous()`: every equation of the algebraic collapse is homogeneous
(as a polynomial in the variables of the main families). -/
def isHomogeneous (C : Ctx P Fam Par) (S : RWOSystem P Fam Par) : Bool :=
  S.equations.all (C.homogAlg S.vars)

/-- `is_linear(variables)`: every equation is linear in the given families
(default: the system's main variables). -/
def isLinear (C : Ctx P Fam Par) (S : RWOSystem P Fam Par)
    (vs? : Option (List Fam)) : Bool :=
  S.equations.all (fun e => C.linear e (vs?.getD S.vars))

/-- `is_sp2()`: the number of algebraic variables equals the number of
equations when the system is homogeneous, and one less otherwise.  (Python
compares `len(...) == self.size() - 1` over the integers; over the naturals
this is `len + 1 == size`, which also agrees for `size() == 0`.) -/
def isSp2 (C : Ctx P Fam Par) (S : RWOSystem P Fam Par) : Bool :=
  if isHomogeneous C S then
    (algebraicVariables C S).length == S.size
  else
    (algebraicVariables C S).length + 1 == S.size

/-- Compositions of `n` into exactly `k` parts, each between `1` and `b`,
enumerated with the first part decreasing: models sage's
`Compositions(n, length=k, max_part=b)`. -/
def compositions (n : ℕ) : ℕ → ℕ → List (List ℕ)
  | 0, _ => if n = 0 then [[]] else []
  | k + 1, b =>
    ((List.range b).reverse.map (· + 1)).flatMap
      (fun p => if p ≤ n then (compositions (n - p) k b).map (p :: ·) else [])

/-- The block of candidate bound vectors of total weight `i` in the extension
search: compositions of `i + size` into `size` parts capped at `bound`, with
every part shifted down by one. -/
def candBlock (size bound i : ℕ) : List (List ℕ) :=
  (compositions (i + size) size bound).map (fun c => c.map (· - 1))

/-- The candidate enumeration of `__get_extension`: the generator
`gen_cartesian(size, bound)` yields, for `i` increasing from `0` to
`bound*size - 1`, every candidate of total weight `i`. -/
def genCandidates (size bound : ℕ) : List (List ℕ) :=
  (List.range (bound * size)).flatMap (candBlock size bound)

/-- The search loop of `__get_extension`: try each candidate in order, return
the first one whose SP1 extension satisfies SP2, propagate any exception of the
extension construction, and raise `TypeError` when the enumeration is
exhausted. -/
def findExt (C : Ctx P Fam Par) (S : RWOSystem P Fam Par) :
    List (List ℕ) → Except PyErr (List ℕ)
  | [] => .error .typeError
  | L :: rest =>
    match extendByOperation C S L with
    | .error e => .error e
    | .ok T => if isSp2 C T then .ok L else findExt C S rest

/-- `__get_extension(bound)`: search the balanced enumeration of candidate
bound vectors for one whose extension satisfies SP2. -/
def getExtension (C : Ctx P Fam Par) (S : RWOSystem P Fam Par) (bound : ℕ) :
    Except PyErr (List ℕ) :=
  findExt C S (genCandidates S.size bound)

/-- The SP2 test of the extension of `S` by a candidate vector, as evaluated
inside the search loop (an extension that failed to build counts as no
success). -/
def extSp2 (C : Ctx P Fam Par) (S : RWOSystem P Fam Par) (L : List ℕ) : Bool :=
  match extendByOperation C S L with
  | .ok T => isSp2 C T
  | .error _ => false

/-- `__decide_resultant_algorithm()`: Macaulay for linear systems, iterative
elimination otherwise. -/
def decideResultantAlgorithm (C : Ctx P Fam Par) (S : RWOSystem P Fam Par) :
    String :=
  if isLinear C S none then "macaulay" else "iterative"

/-- `__dixon(bound)`: always raises `NotImplementedError`. -/
def dixonRes (bound : ℕ) : Except PyErr P :=
  .error .notImplementedError

variable [DecidableEq P]

/-- `diff_resultant(bound_L, alg_res)`: with a cached result, return it
immediately; otherwise validate the algorithm keyword, resolve `"auto"` via
`__decide_resultant_algorithm`, dispatch to the chosen algorithm, treat a zero
result as a degenerate-input `ValueError`, and cache the result coerced into
the parent ring.  The bodies of `__macaulay` and `__iterative` call the
external algebraic solvers and are abstracted as the oracles `mac` and `iter`;
`__dixon` is `dixonRes`.  The cache `self.__CACHED_RES` is passed and returned
explicitly. -/
def diffResultant (C : Ctx P Fam Par) (mac iter : ℕ → Except PyErr P)
    (S : RWOSystem P Fam Par) (cache : Option P) (bound : ℕ) (alg : String) :
    Except PyErr (P × Option P) :=
  match cache with
  | some r => .ok (r, some r)
  | none =>
    if alg ∈ (["auto", "iterative", "dixon", "macaulay"] : List String) then
      let toUse := if alg = "auto" then decideResultantAlgorithm C S else alg
      let output : Except PyErr P :=
        if toUse = "dixon" then dixonRes bound
        else if toUse = "macaulay" then mac bound
        else iter bound
      match output with
      | .error e => .error e
      | .ok out =>
        if out = C.zeroP then .error .valueError
        else
          let r := C.coerce S.parentR out
          .ok (r, some r)
    else .error .valueError

/-- The laws the external collaborators satisfy: pushout of a ring with itself
is itself, the operator is an endomorphism of the ring of each element, and
coercing an element into its own parent is the identity. -/
structure Lawful (C : Ctx P Fam Par) : Prop where
  push_self : ∀ p, C.push p p = p
  parOf_op : ∀ e, C.parOf (C.op e) = C.parOf e
  coerce_self : ∀ p e, C.parOf e = p → C.coerce p e = e

/-- Well-formedness of a system, as established by a successful run of the
constructor: every stored equation lies in the unifying ring, the ring is a
ring of operator polynomials, the main variables are generators, and the
parameters are exactly the remaining generators. -/
def WF (C : Ctx P Fam Par) (S : RWOSystem P Fam Par) : Prop :=
  (∀ e ∈ S.equations, C.parOf e = S.parentR) ∧
  C.isRWORing S.parentR = true ∧
  (∀ v ∈ S.vars, v ∈ C.gens S.parentR) ∧
  S.params = (C.gens S.parentR).filter (fun g => decide (g ∉ S.vars))

end Generic

section Concrete

/-!
A concrete instantiation of the collaborator interface, used for the spec's
concrete scenarios.  Modelled from the spec: the operator-polynomial class is
not part of the system source; per the glossary, the operator is the base
derivation extended by `apply(family_k) = family_(k+1)`, which matches every
doctest of the source file.  Polynomials are kept in a canonical sorted form
so that all scenario computations evaluate by `decide`/`rfl`.
-/

/-- Coefficients: integer polynomials in `x`, little-endian coefficient lists
whose canonical form has no trailing zero.  The base rings of the concrete
scenarios (`QQ` and `QQ[x]` with integer inputs) embed here, with `d/dx` as
the base derivation (constants differentiate to zero). -/
abbrev PolyX := List ℤ

/-- Drop trailing zero coefficients. -/
def trimP (p : PolyX) : PolyX := (p.reverse.dropWhile (· == 0)).reverse

/-- Pointwise addition of coefficient lists. -/
def addPAux : PolyX → PolyX → PolyX
  | [], q => q
  | p, [] => p
  | a :: p, b :: q => (a + b) :: addPAux p q

/-- Addition in `ℤ[x]`, renormalizing. -/
def addP (p q : PolyX) : PolyX := trimP (addPAux p q)

/-- Multiplication by an integer scalar; `ℤ` is a domain, so the canonical
form survives scaling by a nonzero integer. -/
def scaleP (n : ℤ) (p : PolyX) : PolyX := if n = 0 then [] else p.map (n * ·)

/-- Helper for `derivP`: multiply the coefficient of `x^i` by `i`. -/
def derivPAux : ℕ → PolyX → PolyX
  | _, [] => []
  | i, a :: p => ((i : ℤ) * a) :: derivPAux (i + 1) p

/-- The derivation `d/dx` on `ℤ[x]`. -/
def derivP (p : PolyX) : PolyX :=
  match p with
  | [] => []
  | _ :: q => trimP (derivPAux 1 q)

/-- An algebraic variable of the concrete model: (family index, order index). -/
abbrev Var := ℕ × ℕ

/-- Strict order on variables: by family, then by order index. -/
def varLt (v w : Var) : Bool :=
  decide (v.1 < w.1) || (decide (v.1 = w.1) && decide (v.2 < w.2))

/-- A monomial: an exponent list sorted strictly by variable, all exponents
positive. -/
abbrev Mon := List (Var × ℕ)

/-- A strict lexicographic order on monomials, used to keep terms sorted. -/
def monLt : Mon → Mon → Bool
  | [], [] => false
  | [], _ :: _ => true
  | _ :: _, [] => false
  | (v, e) :: m, (w, d) :: m2 =>
    if v = w then (if e = d then monLt m m2 else decide (e < d)) else varLt v w

/-- Add `e` to the exponent of `v` in a sorted monomial. -/
def monInsert (v : Var) (e : ℕ) : Mon → Mon
  | [] => [(v, e)]
  | (w, d) :: m =>
    if v = w then (w, d + e) :: m
    else if varLt v w then (v, e) :: (w, d) :: m
    else (w, d) :: monInsert v e m

/-- Decrease the exponent of `v` in a sorted monomial by one, dropping it at
zero. -/
def monDec (v : Var) : Mon → Mon
  | [] => []
  | (w, d) :: m =>
    if w = v then (if d ≤ 1 then m else (w, d - 1) :: m) else (w, d) :: monDec v m

/-- A multivariate operator polynomial over `ℤ[x]`: terms sorted strictly by
monomial, all coefficients nonzero. -/
abbrev Poly := List (Mon × PolyX)

/-- Merge one term into a sorted polynomial, combining equal monomials and
dropping terms whose coefficient cancels to zero. -/
def addTermAux (m : Mon) (c : PolyX) : Poly → Poly
  | [] => [(m, c)]
  | (m2, c2) :: p =>
    if m = m2 then
      (fun c3 => if c3 = [] then p else (m2, c3) :: p) (addP c c2)
    else if monLt m m2 then (m, c) :: (m2, c2) :: p
    else (m2, c2) :: addTermAux m c p

/-- Merge one term into a sorted polynomial (a zero coefficient contributes
nothing). -/
def addTerm (m : Mon) (c : PolyX) (p : Poly) : Poly :=
  if c = [] then p else addTermAux m c p

/-- Leibniz expansion of the operator on a single term `c·m`: differentiate
the coefficient, and for each variable factor `v_(f,k)^e` of `m` replace one
occurrence of `v_(f,k)` by `v_(f,k+1)`, scaled by `e`. -/
def opTerm (m : Mon) (c : PolyX) : List (Mon × PolyX) :=
  (m, derivP c) ::
    m.map (fun ve =>
      (monInsert (ve.1.1, ve.1.2 + 1) 1 (monDec ve.1 m), scaleP (ve.2 : ℤ) c))

/-- The operator on a polynomial: the merged Leibniz expansions of its terms. -/
def opPoly (p : Poly) : Poly :=
  p.foldr (fun t acc => (opTerm t.1 t.2).foldr (fun s a2 => addTerm s.1 s.2 a2) acc) []

/-- The distinct algebraic variables appearing in a polynomial
(`el.variables()`). -/
def varsOfPoly (p : Poly) : List Var := (p.flatMap (fun t => t.1.map (·.1))).dedup

/-- Total degree of a monomial in the variables of the given families. -/
def monDegIn (vs : List ℕ) (m : Mon) : ℕ :=
  ((m.filter (fun ve => decide (ve.1.1 ∈ vs))).map (·.2)).sum

/-- Homogeneity of the algebraic collapse of `p` with main families `vs`: all
terms have the same total degree in the variables of those families.  Distinct
full monomials collapse to terms with distinct outer-monomial/coefficient
placement, so no cancellation can change the set of degrees present. -/
def homogAlgPoly (vs : List ℕ) (p : Poly) : Bool :=
  match p with
  | [] => true
  | t :: rest => rest.all (fun s => monDegIn vs s.1 == monDegIn vs t.1)

/-- Modelled from the spec: the external per-equation linearity check
`is_linear(equation, families)` — every term has total degree at most one in
the variables of the given families. -/
def linearPoly (p : Poly) (vs : List ℕ) : Bool :=
  p.all (fun t => decide (monDegIn vs t.1 ≤ 1))

/-- The (non-strict) comparison used to sort algebraic variables. -/
def varLeC (v w : Var) : Bool :=
  decide (v.1 < w.1) || (decide (v.1 = w.1) && decide (v.2 ≤ w.2))

/-- The concrete collaborator interface over `Poly`: a single fixed parent
ring (`Par = Unit`) with the given generator families. -/
def mkCtx (g : List ℕ) : Ctx Poly ℕ Unit where
  op := opPoly
  parOf := fun _ => ()
  push := fun _ _ => ()
  isRWORing := fun _ => true
  coerce := fun _ p => p
  gens := fun _ => g
  varsOf := varsOfPoly
  varLe := varLeC
  linear := linearPoly
  homogAlg := homogAlgPoly
  zeroP := []

/-- A single variable `(f, k)` to the first power, as a monomial. -/
def mvar (f k : ℕ) : Mon := [((f, k), 1)]

/-- Scenario 1 equation `u_1 - u_0` (family `u = 0`, base ring `QQ`). -/
def eqU : Poly := [(mvar 0 0, [-1]), (mvar 0 1, [1])]

/-- Scenario 1 ring context: one family `u`. -/
def ctx1 : Ctx Poly ℕ Unit := mkCtx [0]

/-- Scenario 1 system `{u_1 - u_0}` with all families as main variables. -/
def sysU : RWOSystem Poly ℕ Unit := ⟨[eqU], (), [0], []⟩

/-- Scenario 2 first equation `x·u_0 + x²·u_2 - (1-x)·v_0`
(families `u = 0`, `v = 1`, base ring `QQ[x]`). -/
def eqXU : Poly := [(mvar 0 0, [0, 1]), (mvar 0 2, [0, 0, 1]), (mvar 1 0, [-1, 1])]

/-- Scenario 2 second equation `v_1 - v_2 + u_1`. -/
def eqV : Poly := [(mvar 0 1, [1]), (mvar 1 1, [1]), (mvar 1 2, [-1])]

/-- Scenario 2 ring context: families `u` and `v`. -/
def ctx2 : Ctx Poly ℕ Unit := mkCtx [0, 1]

/-- Scenario 2 system with `variables = [u]`. -/
def sysUV : RWOSystem Poly ℕ Unit := ⟨[eqXU, eqV], (), [0], [1]⟩

/-- The constant polynomial `1`: a stand-in nonzero value returned by the
external-solver oracles in witnesses. -/
def oneP : Poly := [([], [1])]

/-- An oracle for the external Macaulay/iterative solvers that succeeds with
the nonzero resultant `1`. -/
def okOracle : ℕ → Except PyErr Poly := fun _ => .ok oneP

/-- The concrete contexts satisfy the collaborator laws. -/
theorem lawfulMk (g : List ℕ) : Lawful (mkCtx g) :=
  ⟨fun _ => rfl, fun _ => rfl, fun _ _ _ => rfl⟩

end Concrete

section Lemmas

variable {P Fam Par : Type} [DecidableEq Fam]

/-- Pushing a ring onto itself repeatedly is the identity. -/
theorem foldl_push_const {C : Ctx P Fam Par} (hL : Lawful C) (p : Par)
    (l : List Par) (h : ∀ q ∈ l, q = p) : l.foldl C.push p = p := by
  induction l with
  | nil => rfl
  | cons q l ih =>
    have hq : q = p := h q (List.mem_cons_self q l)
    rw [List.foldl_cons, hq, hL.push_self]
    exact ih (fun r hr => h r (List.mem_cons_of_mem _ hr))

/-- Coercing equations into their own common parent changes nothing. -/
theorem map_coerce_id {C : Ctx P Fam Par} (hL : Lawful C) (eqs : List P)
    (p : Par) (hpar : ∀ e ∈ eqs, C.parOf e = p) : eqs.map (C.coerce p) = eqs := by
  induction eqs with
  | nil => rfl
  | cons e es ih =>
    rw [List.map_cons, hL.coerce_self p e (hpar e (List.mem_cons_self e es)),
      ih (fun q hq => hpar q (List.mem_cons_of_mem _ hq))]

/-- The constructor succeeds, and reproduces its inputs, whenever the
equations already live in the given ring, the ring is an operator-polynomial
ring, and the requested variables are generators. -/
theorem mkSystem_ok {C : Ctx P Fam Par} (hL : Lawful C) (eqs : List P)
    (p : Par) (vs : List Fam) (hpar : ∀ e ∈ eqs, C.parOf e = p)
    (hring : C.isRWORing p = true) (hvs : ∀ v ∈ vs, v ∈ C.gens p) :
    mkSystem C eqs (some p) (some vs) =
      .ok ⟨eqs, p, vs, (C.gens p).filter (fun g => decide (g ∉ vs))⟩ := by
  have hfold : (eqs.map C.parOf).foldl C.push p = p := by
    refine foldl_push_const hL p _ ?_
    intro q hq
    rcases List.mem_map.1 hq with ⟨e, he, rfl⟩
    exact hpar e he
  have hall : (vs.all (fun v => decide (v ∈ C.gens p))) = true := by
    rw [List.all_eq_true]
    intro v hv
    exact decide_eq_true (hvs v hv)
  simp only [mkSystem, hfold, hring, if_true, hall, map_coerce_id hL eqs p hpar]

/-- Whatever system the constructor returns carries the pushed-out parent,
which is the supplied ring when all equations already live there. -/
theorem mkSystem_parent {C : Ctx P Fam Par} (hL : Lawful C) {eqs : List P}
    {p : Par} {vars? : Option (List Fam)} {T : RWOSystem P Fam Par}
    (hpar : ∀ e ∈ eqs, C.parOf e = p)
    (h : mkSystem C eqs (some p) vars? = .ok T) : T.parentR = p := by
  have hfold : (eqs.map C.parOf).foldl C.push p = p := by
    refine foldl_push_const hL p _ ?_
    intro q hq
    rcases List.mem_map.1 hq with ⟨e, he, rfl⟩
    exact hpar e he
  simp only [mkSystem, hfold] at h
  split at h
  · cases vars? with
    | some vs =>
      simp only at h
      split at h
      · cases h; rfl
      · cases h
    | none => simp only at h; cases h; rfl
  · cases h

/-- Applying the operator any number of times keeps an element in its ring. -/
theorem parOf_opPow {C : Ctx P Fam Par} (hL : Lawful C) (k : ℕ) (e : P) :
    C.parOf (opPow C k e) = C.parOf e := by
  induction k with
  | zero => rfl
  | succ k ih => rw [opPow, hL.parOf_op, ih]

/-- Every equation of the SP1-extended list lives in the parent of the
receiver. -/
theorem extendL_parOf {C : Ctx P Fam Par} (hL : Lawful C)
    {S : RWOSystem P Fam Par} (hW : WF C S) (Ls : List ℕ) :
    ∀ q ∈ extendByOperationL C S Ls, C.parOf q = S.parentR := by
  intro q hq
  rcases List.mem_flatMap.1 hq with ⟨pr, hpr, hq2⟩
  rcases List.mem_map.1 hq2 with ⟨k, _, rfl⟩
  rw [parOf_opPow hL]
  exact hW.1 _ (List.of_mem_zip hpr).1

/-- On a well-formed system, `extend_by_operation` succeeds and returns the
extended system with the same parent, variables and parameters. -/
theorem extend_ok {C : Ctx P Fam Par} (hL : Lawful C)
    {S : RWOSystem P Fam Par} (hW : WF C S) (Ls : List ℕ) :
    extendByOperation C S Ls = .ok (extSys C S Ls) := by
  rw [extendByOperation,
    mkSystem_ok hL _ _ _ (extendL_parOf hL hW Ls) hW.2.1 hW.2.2.1]
  rw [extSys, ← hW.2.2.2]

/-- A successful Python lookup returns a member of the sequence. -/
theorem pyGet_ok_mem {l : List P} {i : ℤ} {e : P} (h : pyGet l i = .ok e) :
    e ∈ l := by
  unfold pyGet at h
  split at h
  · cases h
    exact List.get_mem ..
  · cases h

/-- A successfully referenced equation lives in the parent of the system. -/
theorem equationE_parOf {C : Ctx P Fam Par} (hL : Lawful C)
    {S : RWOSystem P Fam Par} (hW : WF C S) {idx : EqIndex} {e : P}
    (h : equationE C S idx = .ok e) : C.parOf e = S.parentR := by
  cases idx with
  | plain i => exact hW.1 e (pyGet_ok_mem h)
  | pair i k =>
    rw [equationE] at h
    cases hg : pyGet S.equations i with
    | error er => rw [hg] at h; cases h
    | ok e0 =>
      rw [hg] at h
      cases h
      rw [parOf_opPow hL]
      exact hW.1 e0 (pyGet_ok_mem hg)

/-- Every output of a successful `mapE` run comes from a successful
application of the function to some input. -/
theorem mapE_mem {f : α → Except PyErr β} :
    ∀ {l : List α} {bs : List β}, mapE f l = .ok bs →
      ∀ b ∈ bs, ∃ a ∈ l, f a = .ok b := by
  intro l
  induction l with
  | nil =>
    intro bs h b hb
    cases h
    cases hb
  | cons a as ih =>
    intro bs h b hb
    rw [mapE] at h
    cases hfa : f a with
    | error er => rw [hfa] at h; cases h
    | ok b0 =>
      rw [hfa] at h
      cases hrest : mapE f as with
      | error er => rw [hrest] at h; cases h
      | ok bs0 =>
        rw [hrest] at h
        cases h
        rcases List.mem_cons.1 hb with rfl | hb2
        · exact ⟨a, List.mem_cons_self a as, hfa⟩
        · rcases ih hrest b hb2 with ⟨a2, ha2, hfa2⟩
          exact ⟨a2, List.mem_cons_of_mem _ ha2, hfa2⟩

/-- Every equation selected by `equations(indices)` lives in the parent of the
system. -/
theorem equationsSel_parOf {C : Ctx P Fam Par} (hL : Lawful C)
    {S : RWOSystem P Fam Par} (hW : WF C S) {idx : Option (List EqIndex)}
    {eqs : List P} (h : equationsSel C S idx = .ok eqs) :
    ∀ e ∈ eqs, C.parOf e = S.parentR := by
  cases idx with
  | none =>
    cases h
    exact hW.1
  | some l =>
    intro e he
    rcases mapE_mem h e he with ⟨a, _, ha⟩
    exact equationE_parOf hL hW ha

/-- The SP1-extended equation list, re-indexed position by position: entry `i`
of the enumeration contributes the operator applications `0 .. Ls[i]` of the
`i`-th equation. -/
theorem zip_flatMap_finRange (C : Ctx P Fam Par) :
    ∀ (es : List P) (Ls : List ℕ), es.length = Ls.length →
      (es.zip Ls).flatMap
          (fun pr => (List.range (pr.2 + 1)).map (fun k => opPow C k pr.1)) =
        (List.finRange es.length).flatMap
          (fun i => (List.range (Ls.getD i.1 0 + 1)).map
            (fun k => opPow C k (es.get i))) := by
  intro es
  induction es with
  | nil =>
    intro Ls h
    simp
  | cons e es ih =>
    intro Ls h
    cases Ls with
    | nil => simp at h
    | cons L Ls2 =>
      have hn : es.length = Ls2.length := by simpa using h
      simp only [List.zip_cons_cons, List.flatMap_cons, List.length_cons,
        List.finRange_succ_eq_map, List.flatMap_map]
      congr 1
      simpa using ih Ls2 hn

/-- The length of the SP1-extended equation list is the sum of the bounds plus
one for each equation. -/
theorem zip_flatMap_length (C : Ctx P Fam Par) :
    ∀ (es : List P) (Ls : List ℕ), es.length = Ls.length →
      ((es.zip Ls).flatMap
        (fun pr => (List.range (pr.2 + 1)).map (fun k => opPow C k pr.1))).length
        = (Ls.map (· + 1)).sum := by
  intro es
  induction es with
  | nil =>
    intro Ls h
    cases Ls with
    | nil => rfl
    | cons L Ls2 => simp at h
  | cons e es ih =>
    intro Ls h
    cases Ls with
    | nil => simp at h
    | cons L Ls2 =>
      have hn : es.length = Ls2.length := by simpa using h
      simp only [List.zip_cons_cons, List.flatMap_cons, List.length_append,
        List.length_map, List.length_range, List.map_cons, List.sum_cons]
      rw [ih Ls2 hn]

/-- A repeated call of the memoized `extend_by_operation` with the same tuple
returns the same system and leaves the cache unchanged. -/
theorem extendCached_repeat {C : Ctx P Fam Par} {S : RWOSystem P Fam Par}
    {cache c2 : List (List ℕ × RWOSystem P Fam Par)} {Ls : List ℕ}
    {T : RWOSystem P Fam Par}
    (h : extendByOperationCached C S cache Ls = .ok (T, c2)) :
    extendByOperationCached C S c2 Ls = .ok (T, c2) := by
  rw [extendByOperationCached] at h ⊢
  cases hf : cache.find? (fun pr => decide (pr.1 = Ls)) with
  | some pr =>
    rw [hf] at h
    cases h
    rw [hf]
  | none =>
    rw [hf] at h
    cases he : extendByOperation C S Ls with
    | error e =>
      rw [he] at h
      cases h
    | ok T2 =>
      rw [he] at h
      cases h
      rw [List.find?_append, hf]
      simp

/-- The search loop returns the first enumerated candidate whose extension
satisfies SP2 (on a well-formed system, where every extension builds). -/
theorem findExt_ok_first {C : Ctx P Fam Par} (hL : Lawful C)
    {S : RWOSystem P Fam Par} (hW : WF C S) :
    ∀ (cands : List (List ℕ)) (L : List ℕ), findExt C S cands = .ok L →
      extSp2 C S L = true ∧
        ∃ pre post, cands = pre ++ L :: post ∧
          ∀ L2 ∈ pre, extSp2 C S L2 = false := by
  intro cands
  induction cands with
  | nil =>
    intro L h
    cases h
  | cons L0 rest ih =>
    intro L h
    rw [findExt, extend_ok hL hW L0] at h
    cases hs : isSp2 C (extSys C S L0) with
    | true =>
      simp only [hs, if_true] at h
      cases h
      refine ⟨?_, [], rest, rfl, ?_⟩
      · rw [extSp2, extend_ok hL hW]
        exact hs
      · intro L2 h2
        cases h2
    | false =>
      simp only [hs, Bool.false_eq_true, if_false] at h
      rcases ih L h with ⟨hsp, pre, post, rfl, hpre⟩
      refine ⟨hsp, L0 :: pre, post, rfl, ?_⟩
      intro L2 h2
      rcases List.mem_cons.1 h2 with rfl | h3
      · rw [extSp2, extend_ok hL hW]
        exact hs
      · exact hpre _ h3

/-- On a well-formed system the search loop fails (with `TypeError`) exactly
when no enumerated candidate's extension satisfies SP2. -/
theorem findExt_error_iff {C : Ctx P Fam Par} (hL : Lawful C)
    {S : RWOSystem P Fam Par} (hW : WF C S) :
    ∀ cands : List (List ℕ),
      (findExt C S cands = .error .typeError ↔
        ∀ L ∈ cands, extSp2 C S L = false) := by
  intro cands
  induction cands with
  | nil => simp [findExt]
  | cons L0 rest ih =>
    rw [findExt, extend_ok hL hW L0]
    cases hs : isSp2 C (extSys C S L0) with
    | true =>
      simp only [hs, if_true]
      constructor
      · intro h
        cases h
      · intro h
        have h0 := h L0 (List.mem_cons_self L0 rest)
        rw [extSp2, extend_ok hL hW] at h0
        simp [hs] at h0
    | false =>
      simp only [hs, Bool.false_eq_true, if_false]
      rw [ih]
      constructor
      · intro h L hl
        rcases List.mem_cons.1 hl with rfl | h3
        · rw [extSp2, extend_ok hL hW]
          exact hs
        · exact h L h3
      · intro h L hl
        exact h L (List.mem_cons_of_mem _ hl)

/-- Elements of `compositions n k b` sum to `n`, have `k` parts, and every
part lies between `1` and `b`. -/
theorem compositions_mem :
    ∀ (k n b : ℕ) (c : List ℕ), c ∈ compositions n k b →
      c.sum = n ∧ c.length = k ∧ ∀ p ∈ c, 1 ≤ p ∧ p ≤ b := by
  intro k
  induction k with
  | zero =>
    intro n b c hc
    rw [compositions] at hc
    split at hc
    · next hn =>
      rcases List.mem_singleton.1 hc with rfl
      refine ⟨by simp [hn], rfl, ?_⟩
      intro p hp
      cases hp
    · cases hc
  | succ k ih =>
    intro n b c hc
    rw [compositions] at hc
    rcases List.mem_flatMap.1 hc with ⟨p, hp, hc2⟩
    rcases List.mem_map.1 hp with ⟨j, hj, rfl⟩
    have hjb : j < b := by
      have := List.mem_reverse.1 hj
      simpa using this
    split at hc2
    · rcases List.mem_map.1 hc2 with ⟨c2, hc2m, rfl⟩
      rcases ih (n - (j + 1)) b c2 hc2m with ⟨hsum, hlen, hparts⟩
      refine ⟨?_, by simp [hlen], ?_⟩
      · simp only [List.sum_cons, hsum]
        omega
      · intro p hp2
        rcases List.mem_cons.1 hp2 with rfl | h3
        · exact ⟨by omega, by omega⟩
        · exact hparts p h3
    · cases hc2

/-- A list of positive parts has at least as large a sum as its length. -/
theorem length_le_sum_of_pos :
    ∀ c : List ℕ, (∀ p ∈ c, 1 ≤ p) → c.length ≤ c.sum := by
  intro c
  induction c with
  | nil => intro; simp
  | cons p c ih =>
    intro h
    have hp : 1 ≤ p := h p (List.mem_cons_self p c)
    have h2 := ih (fun r hr => h r (List.mem_cons_of_mem _ hr))
    simp only [List.length_cons, List.sum_cons]
    omega

/-- Shifting a list of positive parts down by one lowers the sum by the
length. -/
theorem map_sub_one_sum :
    ∀ c : List ℕ, (∀ p ∈ c, 1 ≤ p) → (c.map (· - 1)).sum = c.sum - c.length := by
  intro c
  induction c with
  | nil => intro; rfl
  | cons p c ih =>
    intro h
    have hp : 1 ≤ p := h p (List.mem_cons_self p c)
    have hc : ∀ q ∈ c, 1 ≤ q := fun q hq => h q (List.mem_cons_of_mem _ hq)
    have hcs : c.length ≤ c.sum := length_le_sum_of_pos c hc
    simp only [List.map_cons, List.sum_cons, List.length_cons, ih hc]
    omega

/-- Every candidate of the weight-`i` block of the extension search has total
weight `i`, one entry per equation, and entries at most `bound - 1`. -/
theorem candBlock_mem (size bound i : ℕ) (L : List ℕ)
    (h : L ∈ candBlock size bound i) :
    L.sum = i ∧ L.length = size ∧ ∀ c ∈ L, c + 1 ≤ bound := by
  rcases List.mem_map.1 h with ⟨c, hc, rfl⟩
  rcases compositions_mem size (i + size) bound c hc with ⟨hsum, hlen, hparts⟩
  refine ⟨?_, by simp [hlen], ?_⟩
  · rw [map_sub_one_sum c (fun p hp => (hparts p hp).1), hsum, hlen]
    omega
  · intro x hx
    rcases List.mem_map.1 hx with ⟨p, hp, rfl⟩
    have := hparts p hp
    omega

/-- Python lookup at a valid non-negative position. -/
theorem pyGet_nat {l : List P} (i : ℕ) (hi : i < l.length) :
    pyGet l (i : ℤ) = .ok (l.get ⟨i, hi⟩) := by
  have hidx : pyIdx l (i : ℤ) = (i : ℤ) := by
    rw [pyIdx, if_neg (by omega)]
  have hnat : (pyIdx l (i : ℤ)).toNat = i := by
    rw [hidx]
    exact Int.toNat_natCast i
  rw [pyGet, dif_pos (by rw [hidx]; exact ⟨by omega, by omega⟩)]
  simp only [hnat]

/-- Python lookup out of range (in both directions) raises `IndexError`. -/
theorem pyGet_oob {l : List P} (j : ℤ)
    (hj : (l.length : ℤ) ≤ j ∨ j < -(l.length : ℤ)) :
    pyGet l j = .error .indexError := by
  have hneg : ¬(0 ≤ pyIdx l j ∧ pyIdx l j < l.length) := by
    rw [pyIdx]
    split <;> omega
  rw [pyGet, dif_neg hneg]

/-- Scenario 1's system is well-formed. -/
theorem wfSysU : WF ctx1 sysU :=
  ⟨fun _ _ => rfl, rfl, by decide, by decide⟩

/-- Scenario 2's system is well-formed. -/
theorem wfSysUV : WF ctx2 sysUV :=
  ⟨fun _ _ => rfl, rfl, by decide, by decide⟩

end Lemmas

section Claims

variable {P Fam Par : Type}

/-- C1: for every well-formed system `S` and every list `Ls` of non-negative
integers of length `S.size()`, `extend_by_operation(Ls)` returns a new system
whose equation list is, in order, for each original equation `i`, the
equations `equation((i,0)), equation((i,1)), ..., equation((i, Ls[i]))`; in
particular its size equals `sum(Ls[i] + 1)`, and a repeated memoized call with
the same tuple `Ls` returns the same system with the cache unchanged. -/
theorem claim_C1 [DecidableEq Fam] (C : Ctx P Fam Par)
    (S : RWOSystem P Fam Par) (Ls : List ℕ) (hL : Lawful C) (hW : WF C S)
    (hLen : Ls.length = S.size) :
    extendByOperation C S Ls = .ok (extSys C S Ls) ∧
    (extSys C S Ls).equations =
      (List.finRange S.size).flatMap
        (fun i => (List.range (Ls.getD i.1 0 + 1)).map
          (fun k => opPow C k (S.equations.get i))) ∧
    (extSys C S Ls).size = (Ls.map (· + 1)).sum ∧
    (∀ cache c2 T, extendByOperationCached C S cache Ls = .ok (T, c2) →
      extendByOperationCached C S c2 Ls = .ok (T, c2)) := by
  refine ⟨extend_ok hL hW Ls, ?_, ?_, ?_⟩
  · exact zip_flatMap_finRange C S.equations Ls hLen.symm
  · exact zip_flatMap_length C S.equations Ls hLen.symm
  · intro cache c2 T h
    exact extendCached_repeat h

/-- C1 witness: the hypotheses hold for spec scenario 1, the system
`{u_1 - u_0}` extended by `[5]` into six equations. -/
theorem claim_C1_witness :
    (Lawful ctx1 ∧ WF ctx1 sysU ∧ ([5] : List ℕ).length = sysU.size) ∧
    extendByOperation ctx1 sysU [5] = .ok (extSys ctx1 sysU [5]) ∧
    (extSys ctx1 sysU [5]).size = (([5] : List ℕ).map (· + 1)).sum :=
  ⟨⟨lawfulMk [0], wfSysU, rfl⟩,
    (claim_C1 ctx1 sysU [5] (lawfulMk [0]) wfSysU rfl).1,
    (claim_C1 ctx1 sysU [5] (lawfulMk [0]) wfSysU rfl).2.2.1⟩

/-- C2: for every system, `is_sp2()` returns true iff, with `n` the number of
algebraic variables and `m` the number of equations, `n = m` when the system
is homogeneous and `n = m - 1` otherwise; in particular, for the two-equation
system `{x·u_0 + x²·u_2 - (1-x)·v_0, v_1 - v_2 + u_1}` with
`variables = [u]`, `is_sp2()` is false on the base system and true after
`extend_by_operation([1, 2])`. -/
theorem claim_C2 :
    (∀ {P2 Fam2 Par2 : Type} [DecidableEq Fam2] (C : Ctx P2 Fam2 Par2)
      (S : RWOSystem P2 Fam2 Par2),
      (isSp2 C S = true ↔
        if isHomogeneous C S = true then
          (algebraicVariables C S).length = S.size
        else
          ((algebraicVariables C S).length : ℤ) = (S.size : ℤ) - 1)) ∧
    isSp2 ctx2 sysUV = false ∧
    (extendByOperation ctx2 sysUV [1, 2]).map (isSp2 ctx2) = .ok true := by
  refine ⟨?_, by decide, rfl⟩
  intro P2 Fam2 Par2 inst C S
  cases hh : isHomogeneous C S with
  | true => simp [isSp2, hh]
  | false =>
    simp only [isSp2, hh, Bool.false_eq_true, if_false, beq_iff_eq]
    omega

/-- C3: the extension search enumerates candidate bound vectors of length
`size()` with components at most `bound - 1` (hence within `[-1, bound-1]`),
in blocks of increasing total weight starting from `0`; it returns the first
candidate whose extension satisfies SP2 (so a successful search returns an
extension with `is_sp2() == true`), and raises `TypeError` when no enumerated
candidate up to the bound succeeds. -/
theorem claim_C3 [DecidableEq Fam] (C : Ctx P Fam Par)
    (S : RWOSystem P Fam Par) (bound : ℕ) (hL : Lawful C) (hW : WF C S) :
    (genCandidates S.size bound =
      (List.range (bound * S.size)).flatMap (candBlock S.size bound)) ∧
    (∀ i, ∀ L ∈ candBlock S.size bound i,
      L.sum = i ∧ L.length = S.size ∧ ∀ c ∈ L, c + 1 ≤ bound) ∧
    (∀ L, getExtension C S bound = .ok L →
      extSp2 C S L = true ∧
        ∃ pre post, genCandidates S.size bound = pre ++ L :: post ∧
          ∀ L2 ∈ pre, extSp2 C S L2 = false) ∧
    (getExtension C S bound = .error .typeError ↔
      ∀ L ∈ genCandidates S.size bound, extSp2 C S L = false) := by
  refine ⟨rfl, ?_, ?_, ?_⟩
  · intro i L hmem
    exact candBlock_mem S.size bound i L hmem
  · intro L h
    exact findExt_ok_first hL hW _ L h
  · exact findExt_error_iff hL hW _

/-- C3 witness: the hypotheses hold for scenario 1 with bound `1`, where the
enumeration is exhausted without an SP2 extension and `TypeError` results. -/
theorem claim_C3_witness :
    (Lawful ctx1 ∧ WF ctx1 sysU) ∧
    (getExtension ctx1 sysU 1 = .error .typeError ↔
      ∀ L ∈ genCandidates sysU.size 1, extSp2 ctx1 sysU L = false) :=
  ⟨⟨lawfulMk [0], wfSysU⟩,
    (claim_C3 ctx1 sysU 1 (lawfulMk [0]) wfSysU).2.2.2⟩

/-- C4 counterexample: once a resultant has been cached by a successful call,
a later `diff_resultant(alg_res="dixon")` call on the same instance returns
the cached value instead of raising, refuting the claim as stated for every
system.  (The oracle stands for a successful run of the external Macaulay
solver.) -/
theorem claim_C4_counterexample :
    diffResultant ctx1 okOracle okOracle sysU none 10 "macaulay" =
      .ok (oneP, some oneP) ∧
    diffResultant ctx1 okOracle okOracle sysU (some oneP) 10 "dixon" =
      .ok (oneP, some oneP) :=
  ⟨rfl, rfl⟩

/-- C4 (amended): on a system with no cached resultant,
`diff_resultant(alg_res="dixon")` always raises `NotImplementedError` — it
never silently falls back to another algorithm and never returns a value. -/
theorem claim_C4 [DecidableEq Fam] [DecidableEq P] (C : Ctx P Fam Par)
    (mac iter : ℕ → Except PyErr P) (S : RWOSystem P Fam Par) (bound : ℕ) :
    diffResultant C mac iter S none bound "dixon" =
      .error .notImplementedError := rfl

/-- C5 counterexample: the length of the bound vector is not validated — on
the one-equation system a vector of length two is accepted (the extra entry is
ignored) and an extended system is produced, and on the two-equation system a
vector of length one fails with `IndexError`, which is neither `TypeError` nor
`ValueError`. -/
theorem claim_C5_counterexample :
    extendByOperationChecked ctx1 sysU (.seq [.int 0, .int 3]) =
      .ok (extSys ctx1 sysU [0, 3]) ∧
    extendByOperationChecked ctx2 sysUV (.seq [.int 0]) =
      .error .indexError :=
  ⟨rfl, rfl⟩

/-- C5 (amended): `extend_by_operation` raises `TypeError` on an argument that
is not a list or tuple and `ValueError` on a non-integer or negative entry,
producing no system in either case; the length is not checked against
`size()` — a sequence with at least `size()` valid entries succeeds using only
its first `size()` entries, and a shorter one fails with `IndexError`. -/
theorem claim_C5 [DecidableEq Fam] (C : Ctx P Fam Par)
    (S : RWOSystem P Fam Par) (hL : Lawful C) (hW : WF C S) :
    (extendByOperationChecked C S .nonSeq = .error .typeError) ∧
    (∀ l, l.any pyValBad = true →
      extendByOperationChecked C S (.seq l) = .error .valueError) ∧
    (∀ l, l.any pyValBad = false → S.size ≤ l.length →
      extendByOperationChecked C S (.seq l) =
        .ok (extSys C S (l.map pyValToNat))) ∧
    (∀ l, l.any pyValBad = false → l.length < S.size →
      extendByOperationChecked C S (.seq l) = .error .indexError) := by
  refine ⟨rfl, ?_, ?_, ?_⟩
  · intro l hbad
    simp [extendByOperationChecked, hbad]
  · intro l hgood hlen
    simp only [extendByOperationChecked, hgood, Bool.false_eq_true, if_false]
    rw [if_pos hlen]
    exact extend_ok hL hW _
  · intro l hgood hlen
    simp only [extendByOperationChecked, hgood, Bool.false_eq_true, if_false]
    rw [if_neg (by omega)]

/-- C5 witness: the amended behaviour on scenario 1 — a valid vector of the
right length extends the system. -/
theorem claim_C5_witness :
    (Lawful ctx1 ∧ WF ctx1 sysU ∧
      ([PyVal.int 2] : List PyVal).any pyValBad = false ∧
      sysU.size ≤ ([PyVal.int 2] : List PyVal).length) ∧
    extendByOperationChecked ctx1 sysU (.seq [.int 2]) =
      .ok (extSys ctx1 sysU (([PyVal.int 2] : List PyVal).map pyValToNat)) :=
  ⟨⟨lawfulMk [0], wfSysU, rfl, by decide⟩,
    (claim_C5 ctx1 sysU (lawfulMk [0]) wfSysU).2.2.1 [.int 2] rfl
      (by decide)⟩

/-- C6: with `alg_res = "auto"`, the algorithm actually used is `"macaulay"`
when `is_linear()` holds over the system's current variables and
`"iterative"` otherwise; no other algorithm is ever selected automatically,
and the `"auto"` dispatch of `diff_resultant` agrees with dispatching on the
decided algorithm. -/
theorem claim_C6 [DecidableEq Fam] [DecidableEq P] (C : Ctx P Fam Par)
    (mac iter : ℕ → Except PyErr P) (S : RWOSystem P Fam Par)
    (cache : Option P) (bound : ℕ) :
    (decideResultantAlgorithm C S =
      if isLinear C S none then "macaulay" else "iterative") ∧
    (decideResultantAlgorithm C S = "macaulay" ∨
      decideResultantAlgorithm C S = "iterative") ∧
    diffResultant C mac iter S cache bound "auto" =
      diffResultant C mac iter S cache bound (decideResultantAlgorithm C S) := by
  refine ⟨rfl, ?_, ?_⟩
  · rw [decideResultantAlgorithm]
    cases hl : isLinear C S none with
    | true => left; rw [if_pos rfl]
    | false => right; rw [if_neg (by simp)]
  · cases cache with
    | some r => rfl
    | none =>
      cases hl : isLinear C S none with
      | true =>
        simp only [diffResultant, decideResultantAlgorithm, hl, if_true]
        rfl
      | false =>
        simp only [diffResultant, decideResultantAlgorithm, hl,
          Bool.false_eq_true, if_false]
        rfl

/-- C7: `equation((i,0))` equals `equation(i)`, and `equation((i,n))` equals
the `n`-fold operator application to the `i`-th stored equation; a plain
out-of-range integer index raises `IndexError`. -/
theorem claim_C7 [DecidableEq Fam] (C : Ctx P Fam Par)
    (S : RWOSystem P Fam Par) (i n : ℕ) (hi : i < S.size) :
    equationE C S (.pair i 0) = equationE C S (.plain i) ∧
    equationE C S (.pair i n) = .ok (opPow C n (S.equations.get ⟨i, hi⟩)) ∧
    (∀ j : ℤ, (S.size : ℤ) ≤ j ∨ j < -(S.size : ℤ) →
      equationE C S (.plain j) = .error .indexError) := by
  refine ⟨?_, ?_, ?_⟩
  · rw [equationE, equationE, pyGet_nat i hi]
    rfl
  · rw [equationE, pyGet_nat i hi]
    rfl
  · intro j hj
    rw [equationE]
    exact pyGet_oob j hj

/-- C7 witness: the round trip on scenario 1 at index `0` with two operator
applications. -/
theorem claim_C7_witness :
    (0 < sysU.size) ∧
    equationE ctx1 sysU (.pair 0 2) =
      .ok (opPow ctx1 2 (sysU.equations.get ⟨0, by decide⟩)) :=
  ⟨by decide, (claim_C7 ctx1 sysU 0 2 (by decide)).2.1⟩

/-- C8: `change_variables(self.variables)` returns a system with the same
equation sequence and the same variable partition as the receiver, and
`change_variables(vs)` is the same operation as `subsystem(None, vs)`. -/
theorem claim_C8 [DecidableEq Fam] (C : Ctx P Fam Par)
    (S : RWOSystem P Fam Par) (hL : Lawful C) (hW : WF C S) :
    changeVariables C S S.vars = .ok S ∧
    (∀ vs, changeVariables C S vs = subsystem C S none (some vs)) := by
  constructor
  · show mkSystem C S.equations (some S.parentR) (some S.vars) = .ok S
    rw [mkSystem_ok hL _ _ _ hW.1 hW.2.1 hW.2.2.1, ← hW.2.2.2]
  · intro vs
    rfl

/-- C8 witness: idempotence on scenario 1. -/
theorem claim_C8_witness :
    (Lawful ctx1 ∧ WF ctx1 sysU) ∧
    changeVariables ctx1 sysU sysU.vars = .ok sysU :=
  ⟨⟨lawfulMk [0], wfSysU⟩, (claim_C8 ctx1 sysU (lawfulMk [0]) wfSysU).1⟩

/-- C9: once a resultant is cached on an instance, every later
`diff_resultant` call returns the cached value whatever its arguments are
(including a different bound, an invalid keyword, or `"dixon"`), and argument
validation errors are raised exactly when no resultant is cached. -/
theorem claim_C9 [DecidableEq Fam] [DecidableEq P] (C : Ctx P Fam Par)
    (mac iter : ℕ → Except PyErr P) (S : RWOSystem P Fam Par) (r : P)
    (bound : ℕ) (alg : String)
    (hbad : alg ∉ (["auto", "iterative", "dixon", "macaulay"] : List String)) :
    (∀ b2 a2, diffResultant C mac iter S (some r) b2 a2 = .ok (r, some r)) ∧
    diffResultant C mac iter S none bound alg = .error .valueError := by
  refine ⟨fun b2 a2 => rfl, ?_⟩
  rw [diffResultant, if_neg hbad]

/-- C9 witness: with a cached value, a `"dixon"` call and a call with an
invalid keyword both return the cache; without a cache the invalid keyword
raises `ValueError`. -/
theorem claim_C9_witness :
    ("newton" ∉ (["auto", "iterative", "dixon", "macaulay"] : List String)) ∧
    (∀ b2 a2,
      diffResultant ctx1 okOracle okOracle sysU (some oneP) b2 a2 =
        .ok (oneP, some oneP)) ∧
    diffResultant ctx1 okOracle okOracle sysU none 10 "newton" =
      .error .valueError :=
  ⟨by decide,
    (claim_C9 ctx1 okOracle okOracle sysU oneP 10 "newton" (by decide)).1,
    (claim_C9 ctx1 okOracle okOracle sysU oneP 10 "newton" (by decide)).2⟩

/-- C10: every system-producing operation — `subsystem`, `change_variables`,
`__getitem__` and `extend_by_operation` — returns, when it succeeds, a system
whose parent ring equals the receiver's: the unifying ring computed at
construction is preserved by all derived systems. -/
theorem claim_C10 [DecidableEq Fam] (C : Ctx P Fam Par)
    (S : RWOSystem P Fam Par) (hL : Lawful C) (hW : WF C S) :
    (∀ idx vs T, subsystem C S idx vs = .ok T → T.parentR = S.parentR) ∧
    (∀ vs T, changeVariables C S vs = .ok T → T.parentR = S.parentR) ∧
    (∀ idx T, getItem C S idx = .ok T → T.parentR = S.parentR) ∧
    (∀ Ls T, extendByOperation C S Ls = .ok T → T.parentR = S.parentR) := by
  have hsub : ∀ idx vs T, subsystem C S idx vs = .ok T → T.parentR = S.parentR := by
    intro idx vs T h
    rw [subsystem] at h
    cases hsel : equationsSel C S idx with
    | error e => rw [hsel] at h; cases h
    | ok eqs =>
      rw [hsel] at h
      exact mkSystem_parent hL (equationsSel_parOf hL hW hsel) h
  refine ⟨hsub, ?_, ?_, ?_⟩
  · intro vs T h
    exact hsub none (some vs) T h
  · intro idx T h
    rw [getItem] at h
    cases hsel : equationsSel C S idx with
    | error e => rw [hsel] at h; cases h
    | ok eqs =>
      rw [hsel] at h
      exact mkSystem_parent hL (equationsSel_parOf hL hW hsel) h
  · intro Ls T h
    rw [extendByOperation] at h
    exact mkSystem_parent hL (extendL_parOf hL hW Ls) h

/-- C10 witness: the hypotheses hold for scenario 1; every successful
`extend_by_operation` preserves the parent. -/
theorem claim_C10_witness :
    (Lawful ctx1 ∧ WF ctx1 sysU) ∧
    (∀ Ls T, extendByOperation ctx1 sysU Ls = .ok T →
      T.parentR = sysU.parentR) :=
  ⟨⟨lawfulMk [0], wfSysU⟩,
    (claim_C10 ctx1 sysU (lawfulMk [0]) wfSysU).2.2.2⟩

end Claims

end DAlgebra
